import Mathlib

/-!
# Verification of the `rev` content-addressable object database

A shallow embedding of the core of the repository: hashing
(`internal/object.Hash`, `HashBytes`, `Header`), the zlib codec wrappers
(`compress`, `decompress`), the envelope parser (`parseRaw`), and the
directory-sharded object store (`Write`, `Read`, `resolvePath`), together
with proofs about them.

Byte sequences are `List Nat` (each element a byte value); Go strings are
their byte sequences. File-system state is a finite association from
`(shard, name)` path pairs under `objects/` to stored file bytes.
-/

/-! ## SHA-1 (Go `crypto/sha1`, as used by `HashBytes`)

`HashBytes` delegates to Go's `crypto/sha1`; the digest algorithm is
embedded here in full (FIPS 180: padding, 512-bit blocks, 80 rounds) so
hash values are computed, never assumed. Words are `Nat` reduced
`% 2^32`. -/

/-- Rotate a 32-bit word left by `s` bits (for `x < 2^32`, `s ≤ 32`). -/
def rotl (s x : Nat) : Nat :=
  (x % 2 ^ (32 - s)) * 2 ^ s + x / 2 ^ (32 - s)

/-- The four bytes of a 32-bit word, big-endian. -/
def wordBytes (x : Nat) : List Nat :=
  [x / 16777216 % 256, x / 65536 % 256, x / 256 % 256, x % 256]

/-- Combine bytes into big-endian 32-bit words (groups of four). -/
def toWords : List Nat → List Nat
  | b0 :: b1 :: b2 :: b3 :: rest =>
      (((b0 * 256 + b1) * 256 + b2) * 256 + b3) :: toWords rest
  | _ => []

/-- Extend the 16-word block schedule to 80 words; `rws` is the schedule
so far, most recent word first. -/
def extendSchedule : Nat → List Nat → List Nat
  | 0, rws => rws
  | n + 1, rws =>
      let x := rotl 1 ((rws.getD 2 0) ^^^ (rws.getD 7 0) ^^^ (rws.getD 13 0) ^^^ (rws.getD 15 0))
      extendSchedule n (x :: rws)

/-- The SHA-1 round function and round constant for round `t`
(`4294967295 - b` is 32-bit complement for `b < 2^32`). -/
def sha1FK (t b c d : Nat) : Nat × Nat :=
  if t < 20 then ((b &&& c) ||| ((4294967295 - b) &&& d), 1518500249)
  else if t < 40 then (b ^^^ c ^^^ d, 1859775393)
  else if t < 60 then ((b &&& c) ||| (b &&& d) ||| (c &&& d), 2400959708)
  else (b ^^^ c ^^^ d, 3395469782)

/-- One SHA-1 round on the working state `(a, b, c, d, e)`. -/
def sha1Round (t w : Nat) (st : Nat × Nat × Nat × Nat × Nat) :
    Nat × Nat × Nat × Nat × Nat :=
  let (a, b, c, d, e) := st
  let (f, k) := sha1FK t b c d
  let temp := (rotl 5 a + f + e + k + w) % 4294967296
  (temp, a, rotl 30 b, c, d)

/-- Run the rounds over the word schedule, starting at round `t`. -/
def sha1Rounds (t : Nat) : List Nat → Nat × Nat × Nat × Nat × Nat → Nat × Nat × Nat × Nat × Nat
  | [], st => st
  | w :: ws, st => sha1Rounds (t + 1) ws (sha1Round t w st)

/-- SHA-1 running state: the five 32-bit hash words. -/
structure Sha1State where
  h0 : Nat
  h1 : Nat
  h2 : Nat
  h3 : Nat
  h4 : Nat
deriving DecidableEq

/-- Process one 64-byte block. -/
def processBlock (h : Sha1State) (block : List Nat) : Sha1State :=
  let ws16 := toWords block
  let ws := (extendSchedule 64 ws16.reverse).reverse
  let (a, b, c, d, e) := sha1Rounds 0 ws (h.h0, h.h1, h.h2, h.h3, h.h4)
  ⟨(h.h0 + a) % 4294967296, (h.h1 + b) % 4294967296, (h.h2 + c) % 4294967296,
   (h.h3 + d) % 4294967296, (h.h4 + e) % 4294967296⟩

def chunks64Aux : Nat → List Nat → List (List Nat)
  | 0, _ => []
  | _ + 1, [] => []
  | fuel + 1, b :: rest => (b :: rest).take 64 :: chunks64Aux fuel ((b :: rest).drop 64)

/-- Split a byte list into chunks of 64 bytes (the fuel argument makes
the recursion structural; `l.length` steps always suffice). -/
def chunks64 (l : List Nat) : List (List Nat) :=
  chunks64Aux l.length l

/-- SHA-1 padding: append `0x80`, zeros up to 56 mod 64, then the
64-bit big-endian bit length. -/
def sha1Pad (msg : List Nat) : List Nat :=
  let len := msg.length
  let zeros := (119 - len % 64) % 64
  msg ++ 128 :: List.replicate zeros 0 ++
    [len * 8 / 72057594037927936 % 256, len * 8 / 281474976710656 % 256,
     len * 8 / 1099511627776 % 256, len * 8 / 4294967296 % 256,
     len * 8 / 16777216 % 256, len * 8 / 65536 % 256,
     len * 8 / 256 % 256, len * 8 % 256]

/-- The SHA-1 digest (20 bytes) of a byte sequence. -/
def sha1 (msg : List Nat) : List Nat :=
  let final := (chunks64 (sha1Pad msg)).foldl processBlock
    ⟨1732584193, 4023233417, 2562383102, 271733878, 3285377520⟩
  wordBytes final.h0 ++ wordBytes final.h1 ++ wordBytes final.h2 ++
    wordBytes final.h3 ++ wordBytes final.h4

/-- Lowercase hex digit byte for a value below 16 (`hex.EncodeToString`). -/
def hexDigit (n : Nat) : Nat :=
  if n < 10 then 48 + n else 87 + n

/-- Lowercase hex encoding of a byte list, two digits per byte
(Go `encoding/hex.EncodeToString`). -/
def hexEncode : List Nat → List Nat
  | [] => []
  | b :: rest => hexDigit (b / 16 % 16) :: hexDigit (b % 16) :: hexEncode rest

/-- Hex-encoded SHA-1 digest: 40 hex-digit bytes. -/
def hexDigest (msg : List Nat) : List Nat :=
  hexEncode (sha1 msg)

/-- The byte sequence of a string (code points; ASCII in all uses here),
matching Go's byte view of a string literal. -/
def strBytes (s : String) : List Nat :=
  s.toList.map Char.toNat

/-! ## Decimal rendering and parsing (Go `fmt %d` / `strconv.ParseInt`) -/

/-- Little-endian base-10 digits; the fuel argument (`n` itself suffices)
makes the recursion structural. Agrees with `Nat.digits 10`. -/
def natDecAux : Nat → Nat → List Nat
  | 0, _ => []
  | _ + 1, 0 => []
  | fuel + 1, n + 1 => ((n + 1) % 10) :: natDecAux fuel ((n + 1) / 10)

/-- The ASCII decimal rendering of a natural number (Go `%d`). -/
def natToDecBytes (n : Nat) : List Nat :=
  if n = 0 then [48] else ((natDecAux n n).reverse.map (· + 48))

/-- The ASCII decimal rendering of an integer (Go `%d` on `int64`). -/
def intToDecBytes (s : Int) : List Nat :=
  if s < 0 then 45 :: natToDecBytes s.natAbs else natToDecBytes s.toNat

/-- Go `strconv.ParseInt(s, 10, 64)`: optional `+`/`-` sign, then at
least one digit `0`-`9`, value within the signed 64-bit range; `none`
models a non-nil error (syntax or range). -/
def parseInt64 (s : List Nat) : Option Int :=
  if s = [] then none
  else
    let neg : Bool := s.headD 0 == 45
    let ds := if s.headD 0 = 43 ∨ s.headD 0 = 45 then s.tail else s
    if ds = [] then none
    else if ds.all (fun d => decide (48 ≤ d ∧ d ≤ 57)) then
      let v := ds.foldl (fun (a : Nat) d => a * 10 + (d - 48)) 0
      if neg then
        if v ≤ 2 ^ 63 then some (-(v : Int)) else none
      else
        if v < 2 ^ 63 then some (v : Int) else none
    else none

/-! ## Hasher (`internal/object.Header`, `HashBytes`, `Hash`) -/

/-- `object.Header`: the git object header bytes `"<type> <size>\0"`. -/
def Header (objType : List Nat) (size : Int) : List Nat :=
  objType ++ 32 :: intToDecBytes size ++ [0]

/-- `object.HashBytes`: hex-encoded SHA-1 of a full object. -/
def HashBytes (fullObject : List Nat) : List Nat :=
  hexDigest fullObject

/-- `object.Hash`: builds the full object `header ++ content` and returns
`(sha, fullObject)`. The declared `size` goes into the header unchecked.
The only error path in the source is a failure of the content reader,
which has no counterpart when the content is given as bytes, so the
embedding is total. -/
def Hash (objType : List Nat) (content : List Nat) (size : Int) : List Nat × List Nat :=
  let fullObject := Header objType size ++ content
  (HashBytes fullObject, fullObject)

/-! ## Codec

Modelled from the spec: the codec bodies are Go's `compress/zlib`
(standard library, not part of this repository's sources); §4.2 of the
spec gives its contract — a deflate-family container with the round-trip
law `decompress (compress x) = x` and failure on malformed container
data. It is modelled as a container with the zlib magic bytes, an
explicit payload length, the payload, and an Adler-32-style checksum. -/

/-- Adler-32 checksum (mod-65521 running sums, initial value 1). -/
def adler32 (data : List Nat) : Nat :=
  let s := data.foldl
    (fun (p : Nat × Nat) byte => ((p.1 + byte) % 65521, (p.2 + p.1 + byte) % 65521))
    (1, 0)
  s.2 * 65536 + s.1

/-- `object.compress`: wrap data in the modelled zlib container. -/
def compress (data : List Nat) : List Nat :=
  120 :: 156 :: data.length :: (data ++ [adler32 data])

/-- `object.decompress`: unwrap the modelled zlib container; `none`
models a decompression error on malformed input. -/
def decompress (c : List Nat) : Option (List Nat) :=
  match c with
  | 120 :: 156 :: n :: rest =>
      let body := rest.take n
      if rest.length = n + 1 ∧ rest.drop n = [adler32 body] then some body else none
  | _ => none

/-! ## Envelope parser (`internal/object.parseRaw`) -/

/-- Error kinds of `parseRaw` (the source signals them as strings:
"malformed object: no null byte in header", "malformed object header",
"parsing object size"). -/
inductive ParseError where
  | malformedEnvelope
  | malformedHeader
  | invalidSize
deriving DecidableEq, Repr

/-- Split a byte list at the first occurrence of `sep`: `bytes.IndexByte`
plus the slicing around it (`none` when `sep` does not occur). -/
def splitFirst (sep : Nat) : List Nat → Option (List Nat × List Nat)
  | [] => none
  | b :: rest =>
      if b = sep then some ([], rest)
      else
        match splitFirst sep rest with
        | some (before, after) => some (b :: before, after)
        | none => none

/-- `object.parseRaw`: split raw decompressed bytes into type, size and
body. The header is the bytes before the first NUL; `SplitN(header, " ", 2)`
yields two fields exactly when the header contains a space; the second
field goes through `strconv.ParseInt(_, 10, 64)`. -/
def parseRaw (raw : List Nat) : Except ParseError (List Nat × Int × List Nat) :=
  match splitFirst 0 raw with
  | none => .error .malformedEnvelope
  | some (header, body) =>
    match splitFirst 32 header with
    | none => .error .malformedHeader
    | some (ty, sizeText) =>
      match parseInt64 sizeText with
      | none => .error .invalidSize
      | some size => .ok (ty, size, body)

/-! ## Object store and resolver (`internal/object.Write`, `resolvePath`,
`Read`, `Exists`)

The `objects/` tree under a storage root is an association list from
`(shard, name)` — the two path components `<sha[0:2]>` and `<sha[2:]>` —
to stored file bytes. `MkdirAll` cannot fail in the model, so a shard
directory exists exactly when some file lives in it; `os.ReadDir` of an
absent directory and of an empty one both lead to the same `NotFound`
outcome in the source. -/

/-- The `objects/` tree: `((shard, name), fileBytes)` entries. -/
abbrev ObjDB := List ((List Nat × List Nat) × List Nat)

/-- `os.Stat` / `os.ReadFile` of `objects/<shard>/<name>`. -/
def dbGet (db : ObjDB) (shard name : List Nat) : Option (List Nat) :=
  match db with
  | [] => none
  | ((s, n), v) :: rest =>
      if s = shard ∧ n = name then some v else dbGet rest shard name

/-- `os.ReadDir` of `objects/<shard>`: the file names in that shard. -/
def readDir (db : ObjDB) (shard : List Nat) : List (List Nat) :=
  (db.filter (fun e => e.1.1 == shard)).map (fun e => e.1.2)

/-- The error of `object.Write` ("invalid sha length"). -/
inductive WriteError where
  | invalidId
deriving DecidableEq, Repr

/-- `object.Write`: reject ids not of length 40; if a file already exists
at `objects/<sha[0:2]>/<sha[2:]>` succeed without modifying it; otherwise
store the compressed envelope there. -/
def Write (db : ObjDB) (sha : List Nat) (fullObject : List Nat) : Except WriteError ObjDB :=
  if sha.length ≠ 40 then .error .invalidId
  else
    match dbGet db (sha.take 2) (sha.drop 2) with
    | some _ => .ok db
    | none => .ok (((sha.take 2, sha.drop 2), compress fullObject) :: db)

/-- Error kinds of `object.resolvePath` (signalled as strings in the
source: "hash prefix too short", "object ... not found",
"ambiguous hash prefix ... (n matches)"). -/
inductive ResolveError where
  | prefixTooShort
  | notFound
  | ambiguous (count : Nat)
deriving DecidableEq, Repr

/-- `object.resolvePath`: resolve a full or partial hash to the object's
`(shard, name)` path and full 40-character hash. Inputs shorter than 4
characters are rejected; a 40-character input is checked directly
against its exact path; otherwise the shard directory named by the first
two characters is scanned for names extending the remaining characters. -/
def resolvePath (db : ObjDB) (hash : List Nat) :
    Except ResolveError ((List Nat × List Nat) × List Nat) :=
  if hash.length < 4 then .error .prefixTooShort
  else if hash.length = 40 then
    match dbGet db (hash.take 2) (hash.drop 2) with
    | some _ => .ok ((hash.take 2, hash.drop 2), hash)
    | none => .error .notFound
  else
    match (readDir db (hash.take 2)).filter (fun n => (hash.drop 2).isPrefixOf n) with
    | [] => .error .notFound
    | [m] => .ok ((hash.take 2, m), hash.take 2 ++ m)
    | ms => .error (.ambiguous ms.length)

/-- Error kinds of `object.Read`. -/
inductive ReadError where
  | resolve (e : ResolveError)
  | ioError
  | corruptStream
  | parse (e : ParseError)
deriving DecidableEq, Repr

/-- `object.Object`: the parsed object returned by `Read`. -/
structure Obj where
  objType : List Nat
  size : Int
  hash : List Nat
  body : List Nat
deriving DecidableEq, Repr

/-- `object.Read`: resolve the hash, read the file, decompress, parse. -/
def Read (db : ObjDB) (hash : List Nat) : Except ReadError Obj :=
  match resolvePath db hash with
  | .error e => .error (.resolve e)
  | .ok (path, resolvedHash) =>
    match dbGet db path.1 path.2 with
    | none => .error .ioError
    | some compressed =>
      match decompress compressed with
      | none => .error .corruptStream
      | some raw =>
        match parseRaw raw with
        | .error e => .error (.parse e)
        | .ok (objType, size, body) => .ok ⟨objType, size, resolvedHash, body⟩


/-! ## Basic lemmas: digest shape, codec round trip, splitting -/

theorem sha1_length (msg : List Nat) : (sha1 msg).length = 20 := by
  simp [sha1, wordBytes]

theorem hexEncode_length (l : List Nat) : (hexEncode l).length = 2 * l.length := by
  induction l with
  | nil => simp [hexEncode]
  | cons b rest ih => simp [hexEncode, ih]; ring

theorem hashBytes_length (x : List Nat) : (HashBytes x).length = 40 := by
  simp [HashBytes, hexDigest, hexEncode_length, sha1_length]

theorem decompress_compress (x : List Nat) : decompress (compress x) = some x := by
  simp only [compress, decompress]
  rw [List.take_left x, List.drop_left x]
  simp

theorem splitFirst_append (sep : Nat) (l₁ l₂ : List Nat) (h : sep ∉ l₁) :
    splitFirst sep (l₁ ++ sep :: l₂) = some (l₁, l₂) := by
  induction l₁ with
  | nil => simp [splitFirst]
  | cons b rest ih =>
    have hb : b ≠ sep := fun hcontra => h (hcontra ▸ List.mem_cons_self b rest)
    have hrest : sep ∉ rest := fun hm => h (List.mem_cons_of_mem b hm)
    simp only [List.cons_append, splitFirst, if_neg hb, List.append_eq, ih hrest]

theorem splitFirst_eq_none (sep : Nat) (l : List Nat) :
    splitFirst sep l = none ↔ sep ∉ l := by
  induction l with
  | nil => simp [splitFirst]
  | cons b rest ih =>
    by_cases hb : b = sep
    · subst hb; simp [splitFirst]
    · simp only [splitFirst, if_neg hb]
      cases hsp : splitFirst sep rest with
      | none => simp [List.mem_cons, Ne.symm hb, ih.mp hsp, hb]
      | some p => 
        have : sep ∈ rest := by
          by_contra hm
          rw [← ih] at hm
          rw [hsp] at hm
          exact Option.some_ne_none p hm
        simp [List.mem_cons, this]

theorem splitFirst_mem (sep : Nat) (l : List Nat) (h : sep ∈ l) :
    splitFirst sep l =
      some (l.takeWhile (fun b => b != sep), (l.dropWhile (fun b => b != sep)).tail) := by
  induction l with
  | nil => cases h
  | cons b rest ih =>
    by_cases hb : b = sep
    · subst hb
      simp [splitFirst, List.takeWhile_cons, List.dropWhile_cons]
    · have hrest : sep ∈ rest := by
        rcases List.mem_cons.mp h with h1 | h2
        · exact absurd h1.symm hb
        · exact h2
      have hne : (b != sep) = true := by simp [hb]
      simp only [splitFirst, if_neg hb, ih hrest, List.takeWhile_cons, hne, if_pos,
        List.dropWhile_cons, cond_true]

/-! ## Decimal rendering agrees with parsing -/

theorem natDecAux_eq_digits (fuel n : Nat) (h : n ≤ fuel) :
    natDecAux fuel n = Nat.digits 10 n := by
  induction fuel generalizing n with
  | zero =>
    have hn : n = 0 := Nat.le_zero.mp h
    subst hn; simp [natDecAux]
  | succ f ih =>
    cases n with
    | zero => simp [natDecAux]
    | succ m =>
      rw [natDecAux, Nat.digits_def' (by norm_num : (1:Nat) < 10) (Nat.succ_pos m)]
      congr 1
      refine ih _ ?_
      have : (m + 1) / 10 < m + 1 := Nat.div_lt_self (Nat.succ_pos m) (by norm_num)
      omega

theorem natToDecBytes_eq (n : Nat) (h : n ≠ 0) :
    natToDecBytes n = (Nat.digits 10 n).reverse.map (· + 48) := by
  simp [natToDecBytes, h, natDecAux_eq_digits n n le_rfl]

theorem natToDecBytes_bounds (n : Nat) : ∀ d ∈ natToDecBytes n, 48 ≤ d ∧ d ≤ 57 := by
  intro d hd
  by_cases h : n = 0
  · subst h; simp [natToDecBytes] at hd; omega
  · rw [natToDecBytes_eq n h] at hd
    simp only [List.mem_map, List.mem_reverse] at hd
    obtain ⟨a, ha, rfl⟩ := hd
    have := Nat.digits_lt_base (by norm_num) ha
    omega

theorem intToDecBytes_bounds (s : Int) : ∀ d ∈ intToDecBytes s, 45 ≤ d ∧ d ≤ 57 := by
  intro d hd
  unfold intToDecBytes at hd
  split at hd
  · rcases List.mem_cons.mp hd with rfl | hm
    · omega
    · have := natToDecBytes_bounds _ _ hm; omega
  · have := natToDecBytes_bounds _ _ hd; omega

theorem foldl_dec_value (l : List Nat) (acc : Nat) :
    List.foldl (fun a d => a * 10 + d) acc l.reverse
      = acc * 10 ^ l.length + Nat.ofDigits 10 l := by
  induction l generalizing acc with
  | nil => simp
  | cons d rest ih =>
    simp only [List.reverse_cons, List.foldl_append, List.foldl_cons, List.foldl_nil, ih,
      Nat.ofDigits_cons, List.length_cons, pow_succ]
    ring

theorem parseInt64_digit_list (l : List Nat) (hne : l ≠ []) (hlt : ∀ d ∈ l, d < 10)
    (hv : List.foldl (fun a d => a * 10 + d) 0 l < 2 ^ 63) :
    parseInt64 (l.map (· + 48)) = some ((List.foldl (fun a d => a * 10 + d) 0 l : Nat) : Int) := by
  obtain ⟨b, bs, rfl⟩ := List.exists_cons_of_ne_nil hne
  have hb : b < 10 := hlt b (List.mem_cons_self b bs)
  have hhead : (b :: bs).map (· + 48) = (b + 48) :: bs.map (· + 48) := by simp
  unfold parseInt64
  rw [hhead]
  rw [if_neg (by simp : ¬((b + 48) :: bs.map (· + 48) = []))]
  have hD : ((b + 48) :: bs.map (· + 48)).headD 0 = b + 48 := rfl
  rw [hD]
  rw [if_neg (by omega : ¬(b + 48 = 43 ∨ b + 48 = 45))]
  rw [if_neg (by simp : ¬((b + 48) :: bs.map (· + 48) = []))]
  have hall : ((b + 48) :: bs.map (· + 48)).all (fun d => decide (48 ≤ d ∧ d ≤ 57)) = true := by
    simp only [List.all_cons, List.all_map, List.all_eq_true, Bool.and_eq_true, decide_eq_true_eq]
    refine ⟨by omega, ?_⟩
    intro d hd
    have := hlt d (List.mem_cons_of_mem b hd)
    simp only [Function.comp_apply, decide_eq_true_eq]
    omega
  rw [if_pos hall]
  have hnegf : ((b + 48 : Nat) == 45) = false := by
    simp only [beq_eq_false_iff_ne, ne_eq]; omega
  rw [hnegf]
  simp only [Bool.false_eq_true, if_false]
  have hfold : List.foldl (fun (a : Nat) d => a * 10 + (d - 48)) 0 ((b + 48) :: bs.map (· + 48))
      = List.foldl (fun a d => a * 10 + d) 0 (b :: bs) := by
    rw [show ((b + 48) :: bs.map (· + 48)) = (b :: bs).map (· + 48) from hhead.symm]
    rw [List.foldl_map]
    simp only [Nat.add_sub_cancel]
  rw [hfold, if_pos hv]

theorem parseInt64_natToDecBytes (n : Nat) (h : n < 2 ^ 63) :
    parseInt64 (natToDecBytes n) = some (n : Int) := by
  by_cases h0 : n = 0
  · subst h0; decide
  · rw [natToDecBytes_eq n h0]
    have hne : (Nat.digits 10 n).reverse ≠ [] := by
      simp [Nat.digits_ne_nil_iff_ne_zero.mpr h0]
    have hlt : ∀ d ∈ (Nat.digits 10 n).reverse, d < 10 := by
      intro d hd
      exact Nat.digits_lt_base (by norm_num) (List.mem_reverse.mp hd)
    have hval : List.foldl (fun a d => a * 10 + d) 0 (Nat.digits 10 n).reverse = n := by
      rw [foldl_dec_value, Nat.ofDigits_digits]
      ring
    rw [parseInt64_digit_list _ hne hlt (by rw [hval]; exact h), hval]

theorem intToDecBytes_natCast (n : Nat) : intToDecBytes (n : Int) = natToDecBytes n := by
  simp [intToDecBytes]

/-! ## Envelope and store round trip -/

theorem parseRaw_header_ok (T C : List Nat) (S : Int) (h0 : 0 ∉ T) (h32 : 32 ∉ T)
    (hparse : parseInt64 (intToDecBytes S) = some S) :
    parseRaw (Header T S ++ C) = .ok (T, S, C) := by
  have hassoc : Header T S ++ C = (T ++ 32 :: intToDecBytes S) ++ 0 :: C := by
    simp [Header]
  have hn0 : (0 : Nat) ∉ T ++ 32 :: intToDecBytes S := by
    intro hm
    rcases List.mem_append.mp hm with h | h
    · exact h0 h
    · rcases List.mem_cons.mp h with h | h
      · exact absurd h (by norm_num)
      · have := intToDecBytes_bounds S 0 h; omega
  rw [hassoc]
  simp only [parseRaw, splitFirst_append 0 _ _ hn0, splitFirst_append 32 T _ h32, hparse]

theorem read_singleton (sha env T : List Nat) (S : Int) (C : List Nat)
    (hlen : sha.length = 40) (hp : parseRaw env = Except.ok (T, S, C)) :
    Read [((sha.take 2, sha.drop 2), compress env)] sha = .ok ⟨T, S, sha, C⟩ := by
  have hres : resolvePath [((sha.take 2, sha.drop 2), compress env)] sha
      = .ok ((sha.take 2, sha.drop 2), sha) := by
    unfold resolvePath
    simp [hlen, dbGet]
  simp [Read, hres, dbGet, decompress_compress, hp]

theorem write_empty (sha env : List Nat) (hlen : sha.length = 40) :
    Write [] sha env = .ok [((sha.take 2, sha.drop 2), compress env)] := by
  simp [Write, hlen, dbGet]

theorem write_read (T C : List Nat) (S : Int) (h0 : 0 ∉ T) (h32 : 32 ∉ T)
    (hparse : parseInt64 (intToDecBytes S) = some S) :
    Write [] (Hash T C S).1 (Hash T C S).2
      = .ok [(((Hash T C S).1.take 2, (Hash T C S).1.drop 2), compress (Hash T C S).2)] ∧
    Read [(((Hash T C S).1.take 2, (Hash T C S).1.drop 2), compress (Hash T C S).2)]
        (Hash T C S).1
      = .ok ⟨T, S, (Hash T C S).1, C⟩ := by
  have hlen : (Hash T C S).1.length = 40 := hashBytes_length _
  exact ⟨write_empty _ _ hlen,
    read_singleton _ _ _ _ _ hlen (parseRaw_header_ok T C S h0 h32 hparse)⟩

/-! ## Identifier resolution lemmas -/

theorem prefix_take_drop_iff (q X : List Nat) (h2 : 2 ≤ q.length) :
    q <+: X ↔ q.take 2 = X.take 2 ∧ q.drop 2 <+: X.drop 2 := by
  constructor
  · rintro ⟨t, rfl⟩
    refine ⟨?_, ?_⟩
    · rw [List.take_append_eq_append_take]
      simp [Nat.sub_eq_zero_of_le h2]
    · rw [List.drop_append_eq_append_drop]
      exact List.prefix_append _ _
  · rintro ⟨ht, t, htail⟩
    refine ⟨t, ?_⟩
    calc q ++ t = q.take 2 ++ (q.drop 2 ++ t) := by
          rw [← List.append_assoc, List.take_append_drop]
      _ = X.take 2 ++ X.drop 2 := by rw [ht, htail]
      _ = X := List.take_append_drop 2 X

theorem take_drop_eq_imp_eq (q X : List Nat) (h1 : X.take 2 = q.take 2)
    (h2 : X.drop 2 = q.drop 2) : X = q := by
  rw [← List.take_append_drop 2 X, h1, h2, List.take_append_drop]

theorem readDir_pair (A B dA dB s : List Nat) :
    readDir [((A.take 2, A.drop 2), dA), ((B.take 2, B.drop 2), dB)] s
      = (if A.take 2 = s then [A.drop 2] else [])
        ++ (if B.take 2 = s then [B.drop 2] else []) := by
  by_cases h1 : A.take 2 = s <;> by_cases h2 : B.take 2 = s <;>
    simp [readDir, List.filter_cons, h1, h2]

theorem resolvePath_pair_short (A B dA dB q : List Nat) (hq : q.length < 4) :
    resolvePath [((A.take 2, A.drop 2), dA), ((B.take 2, B.drop 2), dB)] q
      = .error .prefixTooShort := by
  simp [resolvePath, hq]

theorem resolvePath_pair_only (A B dA dB q : List Nat) (hA : A.length = 40)
    (h4 : 4 ≤ q.length) (hpA : q <+: A) (hnB : ¬ q <+: B) :
    resolvePath [((A.take 2, A.drop 2), dA), ((B.take 2, B.drop 2), dB)] q
      = .ok ((A.take 2, A.drop 2), A) := by
  by_cases hq40 : q.length = 40
  · have hqA : q = A := hpA.eq_of_length (by omega)
    subst hqA
    unfold resolvePath
    rw [if_neg (by omega), if_pos hq40]
    simp [dbGet]
  · have h2 : 2 ≤ q.length := by omega
    have htA : q.take 2 = A.take 2 := ((prefix_take_drop_iff q A h2).mp hpA).1
    have hdA : (q.drop 2).isPrefixOf (A.drop 2) = true :=
      List.isPrefixOf_iff_prefix.mpr ((prefix_take_drop_iff q A h2).mp hpA).2
    have hdB : ∀ _ : B.take 2 = q.take 2, (q.drop 2).isPrefixOf (B.drop 2) = false := by
      intro hB2
      rw [Bool.eq_false_iff]
      intro hc
      exact hnB ((prefix_take_drop_iff q B h2).mpr
        ⟨hB2.symm, List.isPrefixOf_iff_prefix.mp hc⟩)
    unfold resolvePath
    rw [if_neg (by omega), if_neg hq40, readDir_pair, if_pos htA.symm]
    by_cases hB2 : B.take 2 = q.take 2
    · rw [if_pos hB2]
      simp [List.filter_cons, hdA, hdB hB2, htA, List.take_append_drop]
    · rw [if_neg hB2]
      simp [List.filter_cons, hdA, htA, List.take_append_drop]

theorem resolvePath_pair_both (A B dA dB q : List Nat) (hA : A.length = 40)
    (hB : B.length = 40) (hAB : A ≠ B) (h4 : 4 ≤ q.length)
    (hpA : q <+: A) (hpB : q <+: B) :
    resolvePath [((A.take 2, A.drop 2), dA), ((B.take 2, B.drop 2), dB)] q
      = .error (.ambiguous 2) := by
  have hq40 : q.length ≠ 40 := by
    intro h
    exact hAB ((hpA.eq_of_length (by omega)).symm.trans (hpB.eq_of_length (by omega)))
  have h2 : 2 ≤ q.length := by omega
  have htA : q.take 2 = A.take 2 := ((prefix_take_drop_iff q A h2).mp hpA).1
  have htB : q.take 2 = B.take 2 := ((prefix_take_drop_iff q B h2).mp hpB).1
  have hdA : (q.drop 2).isPrefixOf (A.drop 2) = true :=
    List.isPrefixOf_iff_prefix.mpr ((prefix_take_drop_iff q A h2).mp hpA).2
  have hdB : (q.drop 2).isPrefixOf (B.drop 2) = true :=
    List.isPrefixOf_iff_prefix.mpr ((prefix_take_drop_iff q B h2).mp hpB).2
  unfold resolvePath
  rw [if_neg (by omega), if_neg hq40, readDir_pair, if_pos htA.symm, if_pos htB.symm]
  simp [List.filter_cons, hdA, hdB]

theorem resolvePath_pair_none (A B dA dB q : List Nat) (h4 : 4 ≤ q.length)
    (hnA : ¬ q <+: A) (hnB : ¬ q <+: B) :
    resolvePath [((A.take 2, A.drop 2), dA), ((B.take 2, B.drop 2), dB)] q
      = .error .notFound := by
  by_cases hq40 : q.length = 40
  · have hgA : ¬ (A.take 2 = q.take 2 ∧ A.drop 2 = q.drop 2) := by
      rintro ⟨h1, h2⟩
      exact hnA (take_drop_eq_imp_eq A q h1.symm h2.symm ▸ List.prefix_refl q)
    have hgB : ¬ (B.take 2 = q.take 2 ∧ B.drop 2 = q.drop 2) := by
      rintro ⟨h1, h2⟩
      exact hnB (take_drop_eq_imp_eq B q h1.symm h2.symm ▸ List.prefix_refl q)
    unfold resolvePath
    rw [if_neg (by omega), if_pos hq40]
    simp [dbGet, hgA, hgB]
  · have h2 : 2 ≤ q.length := by omega
    have hfA : ∀ _ : A.take 2 = q.take 2, (q.drop 2).isPrefixOf (A.drop 2) = false := by
      intro h1
      rw [Bool.eq_false_iff]
      intro hc
      exact hnA ((prefix_take_drop_iff q A h2).mpr
        ⟨h1.symm, List.isPrefixOf_iff_prefix.mp hc⟩)
    have hfB : ∀ _ : B.take 2 = q.take 2, (q.drop 2).isPrefixOf (B.drop 2) = false := by
      intro h1
      rw [Bool.eq_false_iff]
      intro hc
      exact hnB ((prefix_take_drop_iff q B h2).mpr
        ⟨h1.symm, List.isPrefixOf_iff_prefix.mp hc⟩)
    unfold resolvePath
    rw [if_neg (by omega), if_neg hq40, readDir_pair]
    by_cases h1 : A.take 2 = q.take 2 <;> by_cases h2' : B.take 2 = q.take 2 <;>
      simp [h1, h2', List.filter_cons, hfA, hfB]

theorem write_write (db db' : ObjDB) (sha e1 e2 : List Nat) (hlen : sha.length = 40)
    (h1 : Write db sha e1 = .ok db') : Write db' sha e2 = .ok db' := by
  unfold Write at h1 ⊢
  rw [if_neg (by omega)] at h1 ⊢
  cases hd : dbGet db (sha.take 2) (sha.drop 2) with
  | some v =>
    rw [hd] at h1
    injection h1 with h
    subst h
    rw [hd]
  | none =>
    rw [hd] at h1
    injection h1 with h
    subst h
    have hget : dbGet (((sha.take 2, sha.drop 2), compress e1) :: db)
        (sha.take 2) (sha.drop 2) = some (compress e1) := by simp [dbGet]
    rw [hget]

theorem resolve_full_id (db : ObjDB) (q : List Nat) (h40 : q.length = 40) :
    (∀ v, dbGet db (q.take 2) (q.drop 2) = some v →
      resolvePath db q = .ok ((q.take 2, q.drop 2), q)) ∧
    (dbGet db (q.take 2) (q.drop 2) = none → resolvePath db q = .error .notFound) ∧
    (∀ n, resolvePath db q ≠ .error (.ambiguous n)) := by
  unfold resolvePath
  rw [if_neg (by omega), if_pos h40]
  refine ⟨?_, ?_, ?_⟩
  · intro v hv; rw [hv]
  · intro hv; rw [hv]
  · intro n
    cases hv : dbGet db (q.take 2) (q.drop 2) <;> simp

theorem isPrefixOf_true_iff (l₁ l₂ : List Nat) : l₁.isPrefixOf l₂ = true ↔ l₁ <+: l₂ :=
  List.isPrefixOf_iff_prefix

deriving instance DecidableEq for Except

/-! ## Hasher-disciplined stores

`Write` never checks an id against the envelope bytes, so the digest
invariant of the spec can only hold for stores whose entries were all
written under the id the Hasher computed for their envelope. `GoodEntry`
captures one such entry; a store is well formed when every entry is. -/

/-- An entry as a Hasher-disciplined `Write` creates it: the stored bytes
are the compressed envelope built by `Hash` and the two path components
together spell the id `Hash` computed for that envelope. -/
def GoodEntry (e : (List Nat × List Nat) × List Nat) : Prop :=
  ∃ T C : List Nat, ∃ S : Int, 0 ∉ T ∧ 32 ∉ T ∧
    parseInt64 (intToDecBytes S) = some S ∧
    e.2 = compress (Header T S ++ C) ∧
    e.1.1 ++ e.1.2 = HashBytes (Header T S ++ C)

/-- A store all of whose entries are Hasher-disciplined. -/
def WellFormed (db : ObjDB) : Prop := ∀ e ∈ db, GoodEntry e

theorem dbGet_mem (db : ObjDB) (s n v : List Nat) (h : dbGet db s n = some v) :
    ((s, n), v) ∈ db := by
  induction db with
  | nil => simp [dbGet] at h
  | cons e rest ih =>
    obtain ⟨⟨es, en⟩, ev⟩ := e
    unfold dbGet at h
    by_cases hc : es = s ∧ en = n
    · rw [if_pos hc] at h
      injection h with hv
      obtain ⟨rfl, rfl⟩ := hc
      subst hv
      exact List.mem_cons_self _ _
    · rw [if_neg hc] at h
      exact List.mem_cons_of_mem _ (ih h)

theorem resolvePath_ok_concat (db : ObjDB) (q s n full : List Nat)
    (h : resolvePath db q = .ok ((s, n), full)) : full = s ++ n := by
  unfold resolvePath at h
  by_cases h4 : q.length < 4
  · rw [if_pos h4] at h; simp at h
  · rw [if_neg h4] at h
    by_cases h40 : q.length = 40
    · rw [if_pos h40] at h
      cases hd : dbGet db (q.take 2) (q.drop 2) with
      | some v =>
        rw [hd] at h
        simp only [Except.ok.injEq, Prod.mk.injEq] at h
        obtain ⟨⟨hs, hn⟩, hfull⟩ := h
        subst hs; subst hn; subst hfull
        exact (List.take_append_drop 2 q).symm
      | none => rw [hd] at h; simp at h
    · rw [if_neg h40] at h
      cases hm : (readDir db (q.take 2)).filter (fun x => (q.drop 2).isPrefixOf x) with
      | nil => rw [hm] at h; simp at h
      | cons m rest =>
        cases rest with
        | nil =>
          rw [hm] at h
          simp only [Except.ok.injEq, Prod.mk.injEq] at h
          obtain ⟨⟨hs, hn⟩, hfull⟩ := h
          subst hs; subst hn; subst hfull
          rfl
        | cons m2 r2 => rw [hm] at h; simp at h

/-! ## The claims -/

set_option maxRecDepth 100000 in
/-- C1: the claim requires `Hash(T, C, S)` to fail with `InvalidSize`
whenever `S` differs from the length of `C`. The source performs no such
check: with content `"hello\n"` (6 bytes) and declared size 5 it succeeds,
returning the envelope `"blob 5\0hello\n"` and its digest. The success
envelope is still `"<T> <S>\0" ++ C`, as the claim states. -/
theorem hash_trusts_declared_size :
    Hash (strBytes "blob") (strBytes "hello\n") 5
      = (strBytes "2d34dc9f329e6c58d05edfa468a2e77294b438c8", strBytes "blob 5\x00hello\n")
    ∧ (strBytes "hello\n").length = 6 :=
  ⟨by decide, by decide⟩

set_option maxRecDepth 100000 in
/-- C2 counterexample: `Write` accepts any 40-character id without
checking it against the envelope, so the store returns an object whose
resolved id (40 `'0'` bytes) differs from the digest of the envelope
rebuilt from its type, size and body (`"blob 0\0"`). -/
theorem store_returns_mismatched_id :
    Write [] (List.replicate 40 48) (strBytes "blob 0\x00")
      = .ok [(((List.replicate 40 48).take 2, (List.replicate 40 48).drop 2),
              compress (strBytes "blob 0\x00"))]
    ∧ Read [(((List.replicate 40 48).take 2, (List.replicate 40 48).drop 2),
             compress (strBytes "blob 0\x00"))] (List.replicate 40 48)
        = .ok ⟨strBytes "blob", 0, List.replicate 40 48, []⟩
    ∧ HashBytes (Header (strBytes "blob") 0 ++ ([] : List Nat)) ≠ List.replicate 40 48 :=
  ⟨by decide, by decide, by decide⟩

/-- C2 amended: `Write` never validates an id against the envelope, so
the digest invariant holds exactly for Hasher-disciplined stores: the
empty store is well formed; a `Write` of a `Hash`-built envelope under
the id `Hash` computed for it preserves well-formedness; and every
successful `Read` of any id-or-prefix from a well-formed store returns
an object whose resolved id equals the digest of the envelope rebuilt
from its returned type, size and body. -/
theorem read_id_matches_envelope_digest :
    WellFormed ([] : ObjDB)
    ∧ (∀ (db db' : ObjDB) (T C : List Nat) (S : Int), WellFormed db →
        0 ∉ T → 32 ∉ T → parseInt64 (intToDecBytes S) = some S →
        Write db (Hash T C S).1 (Hash T C S).2 = .ok db' → WellFormed db')
    ∧ (∀ (db : ObjDB) (q : List Nat) (o : Obj), WellFormed db → Read db q = .ok o →
        o.hash = HashBytes (Header o.objType o.size ++ o.body)) := by
  refine ⟨?_, ?_, ?_⟩
  · intro e he
    simp at he
  · intro db db' T C S hwf h0 h32 hparse hw
    have hlen : (Hash T C S).1.length = 40 := hashBytes_length _
    unfold Write at hw
    rw [if_neg (by omega)] at hw
    cases hd : dbGet db ((Hash T C S).1.take 2) ((Hash T C S).1.drop 2) with
    | some v =>
      rw [hd] at hw
      injection hw with h'
      subst h'
      exact hwf
    | none =>
      rw [hd] at hw
      injection hw with h'
      subst h'
      intro e he
      rcases List.mem_cons.mp he with rfl | hmem
      · exact ⟨T, C, S, h0, h32, hparse, rfl, by rw [List.take_append_drop]; rfl⟩
      · exact hwf e hmem
  · intro db q o hwf hr
    unfold Read at hr
    cases hres : resolvePath db q with
    | error e => rw [hres] at hr; simp at hr
    | ok pr =>
      obtain ⟨⟨s, n⟩, full⟩ := pr
      simp only [hres] at hr
      cases hd : dbGet db s n with
      | none => simp [hd] at hr
      | some comp =>
        simp only [hd] at hr
        obtain ⟨T, C, S, h0, h32, hparse, hcomp, hkey⟩ := hwf _ (dbGet_mem db s n comp hd)
        simp only at hcomp hkey
        subst hcomp
        simp only [decompress_compress, parseRaw_header_ok T C S h0 h32 hparse] at hr
        injection hr with ho
        subst ho
        show full = _
        rw [resolvePath_ok_concat db q s n full hres]
        exact hkey

set_option maxRecDepth 100000 in
/-- C2 amended, witness: a one-entry well-formed store (type `blob`,
content `"hi"`, size 2) read back at its full Hasher-computed id. -/
theorem read_id_matches_envelope_digest_witness :
    (Obj.mk (strBytes "blob") (2 : Int)
        (Hash (strBytes "blob") (strBytes "hi") (2 : Int)).1 (strBytes "hi")).hash
      = HashBytes (Header (Obj.mk (strBytes "blob") (2 : Int)
          (Hash (strBytes "blob") (strBytes "hi") (2 : Int)).1 (strBytes "hi")).objType
            (Obj.mk (strBytes "blob") (2 : Int)
              (Hash (strBytes "blob") (strBytes "hi") (2 : Int)).1 (strBytes "hi")).size
          ++ (Obj.mk (strBytes "blob") (2 : Int)
              (Hash (strBytes "blob") (strBytes "hi") (2 : Int)).1 (strBytes "hi")).body) :=
  read_id_matches_envelope_digest.2.2
    [(((Hash (strBytes "blob") (strBytes "hi") (2 : Int)).1.take 2,
       (Hash (strBytes "blob") (strBytes "hi") (2 : Int)).1.drop 2),
      compress (Hash (strBytes "blob") (strBytes "hi") (2 : Int)).2)]
    (Hash (strBytes "blob") (strBytes "hi") (2 : Int)).1
    (Obj.mk (strBytes "blob") (2 : Int)
      (Hash (strBytes "blob") (strBytes "hi") (2 : Int)).1 (strBytes "hi"))
    (fun e he => by
      rw [List.mem_singleton] at he
      subst he
      exact ⟨strBytes "blob", strBytes "hi", 2, by decide, by decide, by decide, rfl,
        by rw [List.take_append_drop]; rfl⟩)
    (by decide)

/-- C3: in a store holding exactly the 40-character ids `A` and `B`,
a query of length ≥ 4 that is a prefix of `A` only resolves to `A` (its
path and its full id); a query that is a prefix of both yields
`Ambiguous(2)`; a query that is a prefix of neither yields `NotFound`;
and a query shorter than 4 characters yields `PrefixTooShort`. -/
theorem prefix_resolution_cases (A B dA dB : List Nat) (hA : A.length = 40)
    (hB : B.length = 40) (hAB : A ≠ B) :
    (∀ q, 4 ≤ q.length → q <+: A → ¬ q <+: B →
      resolvePath [((A.take 2, A.drop 2), dA), ((B.take 2, B.drop 2), dB)] q
        = .ok ((A.take 2, A.drop 2), A)) ∧
    (∀ q, 4 ≤ q.length → q <+: A → q <+: B →
      resolvePath [((A.take 2, A.drop 2), dA), ((B.take 2, B.drop 2), dB)] q
        = .error (.ambiguous 2)) ∧
    (∀ q, 4 ≤ q.length → ¬ q <+: A → ¬ q <+: B →
      resolvePath [((A.take 2, A.drop 2), dA), ((B.take 2, B.drop 2), dB)] q
        = .error .notFound) ∧
    (∀ q, q.length < 4 →
      resolvePath [((A.take 2, A.drop 2), dA), ((B.take 2, B.drop 2), dB)] q
        = .error .prefixTooShort) :=
  ⟨fun q h4 hpA hnB => resolvePath_pair_only A B dA dB q hA h4 hpA hnB,
   fun q h4 hpA hpB => resolvePath_pair_both A B dA dB q hA hB hAB h4 hpA hpB,
   fun q h4 hnA hnB => resolvePath_pair_none A B dA dB q h4 hnA hnB,
   fun q hq => resolvePath_pair_short A B dA dB q hq⟩

set_option maxRecDepth 100000 in
/-- C3, witness: ids sharing the 4-character prefix `ce01`; the query
`ce013` matches only the first. -/
theorem prefix_resolution_cases_witness :
    resolvePath
      [(((strBytes "ce013625030ba8dba906f756967f9e9ca394464a").take 2,
         (strBytes "ce013625030ba8dba906f756967f9e9ca394464a").drop 2), []),
       (((strBytes "ce01aaaaaaaaaaaaaaaaaaaaaaaaaaaaaaaaaaaa").take 2,
         (strBytes "ce01aaaaaaaaaaaaaaaaaaaaaaaaaaaaaaaaaaaa").drop 2), [])]
      (strBytes "ce013")
      = .ok (((strBytes "ce013625030ba8dba906f756967f9e9ca394464a").take 2,
              (strBytes "ce013625030ba8dba906f756967f9e9ca394464a").drop 2),
             strBytes "ce013625030ba8dba906f756967f9e9ca394464a") :=
  (prefix_resolution_cases
      (strBytes "ce013625030ba8dba906f756967f9e9ca394464a")
      (strBytes "ce01aaaaaaaaaaaaaaaaaaaaaaaaaaaaaaaaaaaa") [] []
      (by decide) (by decide) (by decide)).1
    (strBytes "ce013") (by decide)
    ((isPrefixOf_true_iff _ _).mp (by decide))
    (fun h => by
      have hb := (isPrefixOf_true_iff _ _).mpr h
      exact absurd hb (by decide))

set_option maxRecDepth 100000 in
/-- C4 counterexample: the raw bytes `"blob -5\0x"` have a second header
field `-5`, which is not a non-negative decimal integer, yet `parseRaw`
succeeds with size `-5` (Go's `strconv.ParseInt(_, 10, 64)` accepts a
sign) instead of failing with `InvalidSize` as the claim requires. -/
theorem parseRaw_accepts_signed_size :
    parseRaw (strBytes "blob -5\x00x") = .ok (strBytes "blob", (-5 : Int), strBytes "x") := by
  decide

/-- C4 amended: `parseRaw` fails with `MalformedEnvelope` exactly when no
NUL byte occurs; with `MalformedHeader` exactly when the header (the bytes
before the first NUL) contains no space; with `InvalidSize` exactly when
the bytes after the first space of the header do not parse as a signed
64-bit decimal integer (`strconv.ParseInt(_, 10, 64)`); and otherwise
succeeds with the first space-separated field as type, the parsed
(possibly negative) size, and everything after the first NUL as body. -/
theorem parseRaw_error_taxonomy (raw : List Nat) :
    (parseRaw raw = .error .malformedEnvelope ↔ 0 ∉ raw) ∧
    (parseRaw raw = .error .malformedHeader ↔
      0 ∈ raw ∧ 32 ∉ raw.takeWhile (fun b => b != 0)) ∧
    (parseRaw raw = .error .invalidSize ↔
      0 ∈ raw ∧ 32 ∈ raw.takeWhile (fun b => b != 0) ∧
        parseInt64 (((raw.takeWhile (fun b => b != 0)).dropWhile (fun b => b != 32)).tail)
          = none) ∧
    (∀ s : Int, 0 ∈ raw → 32 ∈ raw.takeWhile (fun b => b != 0) →
      parseInt64 (((raw.takeWhile (fun b => b != 0)).dropWhile (fun b => b != 32)).tail)
        = some s →
      parseRaw raw
        = .ok ((raw.takeWhile (fun b => b != 0)).takeWhile (fun b => b != 32), s,
            (raw.dropWhile (fun b => b != 0)).tail)) := by
  by_cases hn : 0 ∈ raw
  · have h0 := splitFirst_mem 0 raw hn
    by_cases hs : 32 ∈ raw.takeWhile (fun b => b != 0)
    · have h32 := splitFirst_mem 32 _ hs
      cases hp : parseInt64 (((raw.takeWhile (fun b => b != 0)).dropWhile
          (fun b => b != 32)).tail) with
      | none =>
        simp only [parseRaw, h0, h32, hp]
        refine ⟨?_, ?_, ?_, ?_⟩ <;> simp [hn, hs, hp]
      | some v =>
        simp only [parseRaw, h0, h32, hp]
        refine ⟨?_, ?_, ?_, ?_⟩
        · simp [hn]
        · simp [hs]
        · simp [hp]
        · intro s _ _ hsv
          injection hsv with hv
          rw [hv]
    · have h32n : splitFirst 32 (raw.takeWhile (fun b => b != 0)) = none :=
        (splitFirst_eq_none 32 _).mpr hs
      simp only [parseRaw, h0, h32n]
      refine ⟨?_, ?_, ?_, ?_⟩ <;> simp [hn, hs]
  · have h0n : splitFirst 0 raw = none := (splitFirst_eq_none 0 raw).mpr hn
    simp only [parseRaw, h0n]
    refine ⟨?_, ?_, ?_, ?_⟩ <;> simp [hn]

set_option maxRecDepth 100000 in
/-- C4 amended, witness at `"blob 6\0hi"`. -/
theorem parseRaw_error_taxonomy_witness :
    parseRaw (strBytes "blob 6\x00hi") = .ok (strBytes "blob", (6 : Int), strBytes "hi") := by
  have h := (parseRaw_error_taxonomy (strBytes "blob 6\x00hi")).2.2.2 6
    (by decide) (by decide) (by decide)
  rw [h]
  decide

/-- C5: hashing content `C` of declared size `len C` under a type tag
free of NUL and space bytes, writing the envelope under its computed id
into the empty store, and reading that id back yields exactly
`(type, len C, body) = (T, len C, C)`. The size bound reflects the
source's `int64` size (`io.ReadAll` cannot exceed it). -/
theorem hash_write_read_roundtrip (T C : List Nat) (h0 : 0 ∉ T) (h32 : 32 ∉ T)
    (hlen : C.length < 2 ^ 63) :
    Write [] (Hash T C (C.length : Int)).1 (Hash T C (C.length : Int)).2
      = .ok [(((Hash T C (C.length : Int)).1.take 2, (Hash T C (C.length : Int)).1.drop 2),
              compress (Hash T C (C.length : Int)).2)]
    ∧ Read [(((Hash T C (C.length : Int)).1.take 2, (Hash T C (C.length : Int)).1.drop 2),
             compress (Hash T C (C.length : Int)).2)] (Hash T C (C.length : Int)).1
        = .ok ⟨T, (C.length : Int), (Hash T C (C.length : Int)).1, C⟩ := by
  apply write_read T C (C.length : Int) h0 h32
  rw [intToDecBytes_natCast]
  exact parseInt64_natToDecBytes _ hlen

set_option maxRecDepth 100000 in
/-- C5, witness at type `blob`, content `"hi"`. -/
theorem hash_write_read_roundtrip_witness :
    Write [] (Hash (strBytes "blob") (strBytes "hi") ((strBytes "hi").length : Int)).1
        (Hash (strBytes "blob") (strBytes "hi") ((strBytes "hi").length : Int)).2
      = .ok [(((Hash (strBytes "blob") (strBytes "hi") ((strBytes "hi").length : Int)).1.take 2,
               (Hash (strBytes "blob") (strBytes "hi") ((strBytes "hi").length : Int)).1.drop 2),
              compress (Hash (strBytes "blob") (strBytes "hi") ((strBytes "hi").length : Int)).2)]
    ∧ Read [(((Hash (strBytes "blob") (strBytes "hi") ((strBytes "hi").length : Int)).1.take 2,
              (Hash (strBytes "blob") (strBytes "hi") ((strBytes "hi").length : Int)).1.drop 2),
             compress (Hash (strBytes "blob") (strBytes "hi") ((strBytes "hi").length : Int)).2)]
        (Hash (strBytes "blob") (strBytes "hi") ((strBytes "hi").length : Int)).1
        = .ok ⟨strBytes "blob", ((strBytes "hi").length : Int),
               (Hash (strBytes "blob") (strBytes "hi") ((strBytes "hi").length : Int)).1,
               strBytes "hi"⟩ :=
  hash_write_read_roundtrip (strBytes "blob") (strBytes "hi")
    (by decide) (by decide) (by decide)

/-- C6: the codec round-trip law: decompressing a compressed byte
sequence succeeds and returns the original bytes, for every byte
sequence including the empty one. -/
theorem compress_decompress_roundtrip (x : List Nat) : decompress (compress x) = some x :=
  decompress_compress x

/-- C7: a second `Write` of an id after a successful first `Write` of the
same 40-character id succeeds and leaves the store — in particular the
bytes at `objects/<id[0:2]>/<id[2:]>` — exactly as the first write left
them, even with different envelope bytes. -/
theorem write_idempotent (db db' : ObjDB) (sha e1 e2 : List Nat)
    (hlen : sha.length = 40) (h1 : Write db sha e1 = .ok db') :
    Write db' sha e2 = .ok db' :=
  write_write db db' sha e1 e2 hlen h1

set_option maxRecDepth 100000 in
/-- C7, witness: rewriting an id with different bytes leaves the store
unchanged. -/
theorem write_idempotent_witness :
    Write [(((List.replicate 40 97).take 2, (List.replicate 40 97).drop 2),
            compress (strBytes "blob 0\x00"))]
        (List.replicate 40 97) (strBytes "tree 0\x00")
      = .ok [(((List.replicate 40 97).take 2, (List.replicate 40 97).drop 2),
              compress (strBytes "blob 0\x00"))] :=
  write_idempotent []
    [(((List.replicate 40 97).take 2, (List.replicate 40 97).drop 2),
      compress (strBytes "blob 0\x00"))]
    (List.replicate 40 97) (strBytes "blob 0\x00") (strBytes "tree 0\x00")
    (by decide) (by decide)

set_option maxRecDepth 100000 in
/-- C8: the known vectors: the blob `"hello\n"` of size 6 hashes to
`ce013625030ba8dba906f756967f9e9ca394464a` and the empty blob to
`e69de29bb2d1d6434b8b29ae775ad8c2e48c5391`. -/
theorem hash_known_vectors :
    (Hash (strBytes "blob") (strBytes "hello\n") 6).1
      = strBytes "ce013625030ba8dba906f756967f9e9ca394464a"
    ∧ (Hash (strBytes "blob") [] 0).1
      = strBytes "e69de29bb2d1d6434b8b29ae775ad8c2e48c5391" :=
  ⟨by decide, by decide⟩

/-- C10: a 40-character input takes the exact-match fast path: the result
is determined by the single path `objects/<q[0:2]>/<q[2:]>` — success with
that path and the input as full id when the file exists, `NotFound`
otherwise — and can never be an ambiguity error. -/
theorem full_id_fast_path (db : ObjDB) (q : List Nat) (h40 : q.length = 40) :
    (∀ v, dbGet db (q.take 2) (q.drop 2) = some v →
      resolvePath db q = .ok ((q.take 2, q.drop 2), q)) ∧
    (dbGet db (q.take 2) (q.drop 2) = none → resolvePath db q = .error .notFound) ∧
    (∀ n, resolvePath db q ≠ .error (.ambiguous n)) :=
  resolve_full_id db q h40

set_option maxRecDepth 100000 in
/-- C10, witness: a full-length id absent from an empty store resolves to
`NotFound`. -/
theorem full_id_fast_path_witness :
    resolvePath [] (List.replicate 40 48) = .error .notFound :=
  (full_id_fast_path [] (List.replicate 40 48) (by decide)).2.1 rfl
